import Mathlib

/- Verification of the py-crude-resource-monitor profiler core.

   Shallow embedding of the Rust sources:
     src/types.rs        : record data model
     src/export.rs       : read_report
     src/tracker.rs      : Tracker::tick and the writer thread
     src/export/firefox.rs : ProfileBuilder and generate_fxprof

   Machine integers are modelled as Nat (u32, u64, u128, usize) or Int
   (i32); where a narrowing cast occurs in the source, the model reduces
   modulo 2 to the target width (for example the u128 -> u64 cast in
   sampling_interval, and the u64 -> u32 thread-id casts).  Rust
   saturating_sub on unsigned integers coincides with truncated Nat
   subtraction.  f32 and f64 values are modelled as exact rationals (the
   type Q below); floating-point rounding is not modelled, and every
   concrete value appearing in a claim is exactly representable. -/

namespace PyCrude

/-- Exact rational numbers with kernel-computable arithmetic, used to model
the f32 and f64 values of the source (cpu percentages and counter values).
Values built through the operations below are always kept in reduced form
with a positive denominator, so structural equality is value equality. -/
structure Q where
  num : Int
  den : Nat
deriving DecidableEq

/-- Build the reduced representative of the fraction n / d. -/
def Q.norm (n d : Int) : Q :=
  let s : Int := if d < 0 then -1 else 1
  let n2 := s * n
  let d2 := (s * d).toNat
  let g := Nat.gcd n2.natAbs d2
  if g = 0 then ⟨0, 0⟩ else ⟨n2 / g, d2 / g⟩

def Q.ofNat (n : Nat) : Q := ⟨n, 1⟩

def Q.ofInt (n : Int) : Q := ⟨n, 1⟩

def Q.add (a b : Q) : Q := Q.norm (a.num * b.den + b.num * a.den) (a.den * b.den)

def Q.sub (a b : Q) : Q := Q.norm (a.num * b.den - b.num * a.den) (a.den * b.den)

def Q.mul (a b : Q) : Q := Q.norm (a.num * b.num) (a.den * b.den)

def Q.div (a b : Q) : Q := Q.norm (a.num * b.den) ((a.den : Int) * b.num)

/- ---------------- data model (src/types.rs) ---------------- -/

/-- Frame from src/types.rs.  The locals field is omitted: no code modelled
here ever reads it. -/
structure Frame where
  name : String
  filename : String
  module : Option String
  short_filename : Option String
  line : Int
  is_entry : Bool
deriving DecidableEq

/-- StackTrace from src/types.rs (the Deserialize wrapper of the py-spy
stack trace).  The process_info field is omitted: no code modelled here
ever reads it. -/
structure StackTrace where
  pid : Nat
  thread_id : Nat
  thread_name : Option String
  os_thread_id : Option Nat
  active : Bool
  owns_gil : Bool
  frames : List Frame
deriving DecidableEq

structure ThreadResources where
  cpu : Q
  memory : Nat
  disk_read_bytes : Nat
  disk_write_bytes : Nat
deriving DecidableEq

/-- ProcessResources from src/types.rs.  The HashMap from u64 thread id to
ThreadResources is modelled as an association list looked up by first
match (JSON object keys are unique, so the representation is faithful). -/
structure ProcessResources where
  memory : Nat
  cpu : Q
  disk_read_bytes : Nat
  disk_write_bytes : Nat
  thread_resources : List (Nat × ThreadResources)
deriving DecidableEq

/-- One durable record line, as written by the tracker and re-read by
read_report. -/
structure JsonLine where
  stacktraces : List StackTrace
  resources : ProcessResources
  index : Nat
  time : Nat
deriving DecidableEq

/-- Lookup in the thread_resources association list
(line.resources.thread_resources.get(&os_thread_id) in the source). -/
def lookupTR : List (Nat × ThreadResources) → Nat → Option ThreadResources
  | [], _ => none
  | e :: rest, k => if e.1 = k then some e.2 else lookupTR rest k

/- ---------------- report reading (src/export.rs) ---------------- -/

inductive ReportIdentifier where
  | Pid (pid : Nat)
  | Global
deriving DecidableEq

/-- Split a character list at every newline character; the result always
has one segment more than the number of newlines. -/
def splitNl : List Char → List (List Char)
  | [] => [[]]
  | c :: rest =>
    if c = '\n' then [] :: splitNl rest
    else match splitNl rest with
      | [] => [[c]]
      | seg :: segs => (c :: seg) :: segs

/-- Drop one trailing carriage return, as Rust str::lines does per line. -/
def dropFinalCr (cs : List Char) : List Char :=
  match cs.getLast? with
  | some c => if c = '\r' then cs.dropLast else cs
  | none => cs

/-- Rust str::lines: split on newline characters, drop the final empty
segment produced by a terminating newline, and strip one trailing
carriage return from each line. -/
def rustLines (s : String) : List String :=
  let segs := splitNl s.data
  let segs := if segs.getLast? = some [] then segs.dropLast else segs
  segs.map (fun cs => String.mk (dropFinalCr cs))

/-- Numeric value of a digit list in base ten. -/
def digitsVal (cs : List Char) : Nat :=
  cs.foldl (fun acc c => acc * 10 + (c.toNat - 48)) 0

/-- Rust u32::from_str: an optional leading plus sign, then one or more
ascii digits, with a value below 2 ^ 32. -/
def rustParseU32 (s : String) : Option Nat :=
  let cs := match s.data with
    | '+' :: rest => rest
    | other => other
  if cs.isEmpty then none
  else if cs.all Char.isDigit then
    let v := digitsVal cs
    if v < 2 ^ 32 then some v else none
  else none

/-- Filename stem to report identity: the literal stem global maps to the
Global identity, any other stem must parse as a u32 process id. -/
def parseIdentifier (stem : String) : Option ReportIdentifier :=
  if stem = "global" then some ReportIdentifier.Global
  else (rustParseU32 stem).map ReportIdentifier.Pid

/-- Parse every line; any failing line fails the whole list
(collect::<Result<_, _>>() in the source). -/
def parseAll (parse : String → Option JsonLine) : List String → Option (List JsonLine)
  | [] => some []
  | s :: rest =>
    match parse s, parseAll parse rest with
    | some l, some ls => some (l :: ls)
    | _, _ => none

/-- read_report from src/export.rs over an abstract directory listing: each
entry is a file stem together with the full file content, and the
serde_json line parser is an abstract parameter.  The source inserts the
results into a HashMap; the model returns them in listing order.  Any
malformed line or unrecognized stem fails the whole read. -/
def read_report (parse : String → Option JsonLine) :
    List (String × String) → Option (List (ReportIdentifier × List JsonLine))
  | [] => some []
  | (stem, content) :: rest =>
    match parseAll parse (rustLines content), parseIdentifier stem,
        read_report parse rest with
    | some lines, some id, some tail => some ((id, lines) :: tail)
    | _, _, _ => none

/- ---------------- tracker and writer (src/tracker.rs) ---------------- -/

/-- The output path of one write request.  The source uses the file path
output_dir.join(format!(...)): global.json for the Global record and
pid.json (decimal pid) otherwise; those strings are distinct exactly when
these values are distinct, which this inductive captures. -/
inductive OutPath where
  | global
  | pid (p : Nat)
deriving DecidableEq

structure WriteRequest where
  output_path : OutPath
  resources : ProcessResources
  stacktraces : List StackTrace
  time : Nat
deriving DecidableEq

structure WrittenLine where
  path : OutPath
  line : JsonLine
deriving DecidableEq

/-- The writer thread loop from Tracker::new: per-path counters start at
zero; each request appends exactly one record carrying the current counter
of its path, then increments that counter.  The counters are owned by this
single consumer. -/
def writerRun : List WriteRequest → (OutPath → Nat) → List WrittenLine
  | [], _ => []
  | r :: rs, ctr =>
    { path := r.output_path,
      line := { stacktraces := r.stacktraces, resources := r.resources,
                index := ctr r.output_path, time := r.time } } ::
      writerRun rs (fun q => if q = r.output_path then ctr q + 1 else ctr q)

/-- The index stream a fixed path receives from a written sequence. -/
def indicesFor (p : OutPath) (ws : List WrittenLine) : List Nat :=
  ws.filterMap (fun w => if w.path = p then some w.line.index else none)

/-- Tracker::tick: for every pid with captured stacks, emit one write
request only when get_process_info returns a value (a vanished process is
skipped); always emit one Global request with an empty stack list. -/
def tickRequests (captured : List (Nat × List StackTrace))
    (info : Nat → Option ProcessResources) (ginfo : ProcessResources)
    (t : Nat) : List WriteRequest :=
  (captured.filterMap (fun pr =>
      (info pr.1).map (fun res =>
        { output_path := OutPath.pid pr.1, resources := res,
          stacktraces := pr.2, time := t }))) ++
    [{ output_path := OutPath.global, resources := ginfo,
       stacktraces := [], time := t }]

/- ------------- profile construction (src/export/firefox.rs) ------------- -/

/-- ProfileBuilder::start_time: the minimum time over the merged stream
(iterator min). -/
def start_time (samples : List JsonLine) : Option Nat :=
  match samples.map (fun l => l.time) with
  | [] => none
  | t :: ts => some (ts.foldl Nat.min t)

/-- The consecutive saturating time deltas of the merged stream, in stream
order (windows(2) with saturating_sub in the source; Nat subtraction is
saturating). -/
def timeDeltas (samples : List JsonLine) : List Nat :=
  let ts := samples.map (fun l => l.time)
  (ts.zip ts.tail).map (fun w => w.2 - w.1)

/-- ProfileBuilder::sampling_interval: sort the deltas, take the element at
index len / 2, and cast it from u128 to u64 (reduction modulo 2 ^ 64). -/
def sampling_interval (samples : List JsonLine) : Option Nat :=
  let deltas := List.insertionSort (· ≤ ·) (timeDeltas samples)
  (deltas[deltas.length / 2]?).map (fun d => d % 2 ^ 64)

/-- Modelled from the spec wording of C3: the median of a list of deltas,
taken as the upper middle element of the sorted list. -/
def medianSpec (l : List Nat) : Option Nat :=
  (List.insertionSort (· ≤ ·) l)[l.length / 2]?

/-- ProfileBuilder::cpu: CpuDelta::from_millis(percent / 100 * interval). -/
def cpuScaled (intervalMillis : Nat) (percent : Q) : Q :=
  Q.mul (Q.div percent (Q.ofNat 100)) (Q.ofNat intervalMillis)

/-- Ordering of observed thread pairs by thread id (sort_by on the id in
add_main_thread). -/
def leFst (a b : Nat × String) : Prop := a.1 ≤ b.1

instance : DecidableRel leFst := fun a b => Nat.decLe a.1 b.1

instance : IsTotal (Nat × String) leFst := ⟨fun a b => Nat.le_total a.1 b.1⟩

instance : IsTrans (Nat × String) leFst := ⟨fun _ _ _ hab hbc => Nat.le_trans hab hbc⟩

/-- The (thread id, thread name) pairs observed anywhere in the records of
one process, with a missing name replaced by unnamed, deduplicated (the
source collects them into a HashSet; the HashSet iteration order is
arbitrary, which only matters when one id occurs with two names). -/
def threadPairs (samples : List JsonLine) : List (Nat × String) :=
  ((samples.flatMap (fun l => l.stacktraces)).map
    (fun tr => (tr.thread_id, tr.thread_name.getD "unnamed"))).dedup

/-- The observed thread pairs sorted by thread id. -/
def sortedThreadPairs (samples : List JsonLine) : List (Nat × String) :=
  List.insertionSort leFst (threadPairs samples)

/-- The selection in add_main_thread: the first entry named MainThread in
the id-sorted pair list, else the first (lowest id) entry; none when the
process has no observed thread at all (the source then fails with the
no-threads error). -/
def select_main_thread (samples : List JsonLine) : Option (Nat × String) :=
  match (sortedThreadPairs samples).find? (fun e => e.2 == "MainThread") with
  | some e => some e
  | none => (sortedThreadPairs samples).head?

/-- The selected main thread id. -/
def selectMainThreadId (samples : List JsonLine) : Option Nat :=
  (select_main_thread samples).map (fun e => e.1)

/-- The FrameInfo value built in add_samples: the components of the label
(the source formats name, short filename and line into one string, and
panics when short_filename is none) and the category, where is_entry
selects the Native category and everything else the Python category. -/
structure FrameInfo where
  label_name : String
  label_short : Option String
  label_line : Int
  is_native : Bool
deriving DecidableEq

/-- The interning key of a frame: the pair (filename, line). -/
def frameKey (f : Frame) : String × Int := (f.filename, f.line)

def mkFrameInfo (f : Frame) : FrameInfo :=
  { label_name := f.name, label_short := f.short_filename,
    label_line := f.line, is_native := f.is_entry }

/-- The all_frames HashMap of add_samples, as an association list in
insertion order with unique keys. -/
abbrev FrameMap := List ((String × Int) × FrameInfo)

def fmLookup : FrameMap → (String × Int) → Option FrameInfo
  | [], _ => none
  | e :: rest, k => if e.1 = k then some e.2 else fmLookup rest k

/-- all_frames.entry(key).or_insert_with(...): reuse the existing record
for the key, else append one new record built from this frame. -/
def internFrame (m : FrameMap) (f : Frame) : FrameMap × FrameInfo :=
  match fmLookup m (frameKey f) with
  | some i => (m, i)
  | none => (m ++ [(frameKey f, mkFrameInfo f)], mkFrameInfo f)

/-- The stack_frames loop of add_samples over an already reversed frame
list: intern every frame in order, threading the map. -/
def buildStack (m : FrameMap) : List Frame → FrameMap × List FrameInfo
  | [] => (m, [])
  | f :: fs =>
    let r1 := internFrame m f
    let r2 := buildStack r1.1 fs
    (r2.1, r1.2 :: r2.2)

/-- One emitted thread sample (profile.add_sample in the source).  Thread
handles are in bijection with the u32 thread keys of the per-process
thread map, so a thread is identified here by that key. -/
structure SampleOut where
  thread_key : Nat
  time : Nat
  stack : List FrameInfo
  cpu : Q
  weight : Nat
deriving DecidableEq

/-- The per-stacktrace loop body of add_samples for one record: build the
interned stack, attribute the cpu delta (process cpu for the main thread,
the os-thread entry of the resource map otherwise, zero when absent), and
emit one sample per stack trace. -/
def processTraces (iv mainKey : Nat) (res : ProcessResources) (ts : Nat)
    (m : FrameMap) : List StackTrace → FrameMap × List SampleOut
  | [] => (m, [])
  | tr :: rest =>
    let key := tr.thread_id % 2 ^ 32
    let bs := buildStack m tr.frames.reverse
    let cpu :=
      if key = mainKey then cpuScaled iv res.cpu
      else match tr.os_thread_id with
        | some osid =>
          match lookupTR res.thread_resources osid with
          | some r => cpuScaled iv r.cpu
          | none => Q.ofNat 0
        | none => Q.ofNat 0
    let s : SampleOut :=
      { thread_key := key, time := ts, stack := bs.2, cpu := cpu, weight := 1 }
    let r := processTraces iv mainKey res ts bs.1 rest
    (r.1, s :: r.2)

/-- The outcome of ingesting the record list of one process: the final
interning map, the emitted thread samples, and the per-record counter
samples (timestamp, delta value). -/
structure RunOut where
  frames : FrameMap
  samples : List SampleOut
  mem_samples : List (Nat × Q)
  io_samples : List (Nat × Q)
deriving DecidableEq

/-- The per-record loop of add_samples: process the stack traces of the
record, then give each cumulative counter one delta sample, current raw
value minus the previously stored raw value, updating the stored value. -/
def runLines (iv builderStart mainKey : Nat) (m : FrameMap)
    (memLast ioLast : Q) : List JsonLine → RunOut
  | [] => { frames := m, samples := [], mem_samples := [], io_samples := [] }
  | l :: ls =>
    let ts := l.time - builderStart
    let pt := processTraces iv mainKey l.resources ts m l.stacktraces
    let memVal := Q.ofNat l.resources.memory
    let ioVal := Q.ofNat (l.resources.disk_read_bytes + l.resources.disk_write_bytes)
    let rest := runLines iv builderStart mainKey pt.1 memVal ioVal ls
    { frames := rest.frames,
      samples := pt.2 ++ rest.samples,
      mem_samples := (ts, Q.sub memVal memLast) :: rest.mem_samples,
      io_samples := (ts, Q.sub ioVal ioLast) :: rest.io_samples }

/-- One process entity of the finished profile. -/
structure ProcessOut where
  pid : Nat
  start_millis : Nat
  main_key : Nat
  frames : FrameMap
  samples : List SampleOut
  mem_counter : List (Nat × Q)
  io_counter : List (Nat × Q)
deriving DecidableEq

/-- ProfileBuilder::add_process: a process with no records is skipped
entirely (the outer some none); a process whose records show no thread
fails the whole export (none); otherwise the main thread is selected, both
counters receive an explicit zero baseline sample at the process start
timestamp, and the records are ingested. -/
def add_process (builderStart iv pid : Nat) (samples : List JsonLine) :
    Option (Option ProcessOut) :=
  match samples with
  | [] => some none
  | first :: _ =>
    match select_main_thread samples with
    | none => none
    | some mt =>
      let mainKey := mt.1 % 2 ^ 32
      let startTs := first.time - builderStart
      let ro := runLines iv builderStart mainKey [] (Q.ofNat 0) (Q.ofNat 0) samples
      some (some
        { pid := pid, start_millis := first.time, main_key := mainKey,
          frames := ro.frames, samples := ro.samples,
          mem_counter := (startTs, Q.ofNat 0) :: ro.mem_samples,
          io_counter := (startTs, Q.ofNat 0) :: ro.io_samples })

/-- The finished profile. -/
structure ProfileOut where
  start_time_millis : Nat
  interval_millis : Nat
  processes : List ProcessOut
deriving DecidableEq

/-- The process loop of generate_fxprof: Global entries produce no process;
any failing add_process fails the whole export. -/
def buildProcesses (builderStart iv : Nat) :
    List (ReportIdentifier × List JsonLine) → Option (List ProcessOut)
  | [] => some []
  | (ReportIdentifier.Global, _) :: rest => buildProcesses builderStart iv rest
  | (ReportIdentifier.Pid p, ls) :: rest =>
    match add_process builderStart iv p ls with
    | none => none
    | some none => buildProcesses builderStart iv rest
    | some (some po) =>
      (buildProcesses builderStart iv rest).map (fun t => po :: t)

/-- The merged sample stream: all records of all identities, in the
iteration order of the entry list (the source iterates a HashMap, whose
order is arbitrary and varies between runs). -/
def mergedLines (entries : List (ReportIdentifier × List JsonLine)) : List JsonLine :=
  (entries.map (fun e => e.2)).flatten

/-- generate_fxprof: establish the reference time and the sampling interval
over the merged stream of every identity including Global, then add one
process per Pid entry. -/
def generate_fxprof (entries : List (ReportIdentifier × List JsonLine)) :
    Option ProfileOut :=
  match start_time (mergedLines entries) with
  | none => none
  | some st =>
    match sampling_interval (mergedLines entries) with
    | none => none
    | some iv =>
      match buildProcesses st iv entries with
      | none => none
      | some ps =>
        some { start_time_millis := st, interval_millis := iv, processes := ps }


/- ---------------- fixtures for concrete evaluations ---------------- -/

/-- Resources that are zero everywhere. -/
def zeroRes : ProcessResources :=
  { memory := 0, cpu := Q.ofNat 0, disk_read_bytes := 0,
    disk_write_bytes := 0, thread_resources := [] }

/-- A record with no stack traces (the shape of a Global record). -/
def tline (t : Nat) : JsonLine :=
  { stacktraces := [], resources := zeroRes, index := 0, time := t }

/-- A stack trace of a thread with the given id and name and no frames. -/
def mkTrace (tid : Nat) (nm : Option String) : StackTrace :=
  { pid := 1, thread_id := tid, thread_name := nm, os_thread_id := none,
    active := true, owns_gil := false, frames := [] }

/-- A process record at time t whose memory reading is mem, carrying one
MainThread stack trace. -/
def memLine (idx t mem : Nat) : JsonLine :=
  { stacktraces := [mkTrace 1 (some "MainThread")],
    resources := { zeroRes with memory := mem }, index := idx, time := t }

/-- A process record at time t with one unnamed thread. -/
def pline (t : Nat) : JsonLine :=
  { stacktraces := [mkTrace 1 none], resources := zeroRes, index := 0, time := t }

def dummyProcessOut : ProcessOut :=
  { pid := 0, start_millis := 0, main_key := 0, frames := [], samples := [],
    mem_counter := [], io_counter := [] }

def dummyProfileOut : ProfileOut :=
  { start_time_millis := 0, interval_millis := 0, processes := [] }

/- ---------------- C1: memory counter delta stream ---------------- -/

/-- Three ticks with raw memory readings 100, 150, 130. -/
def c1samples : List JsonLine := [memLine 0 0 100, memLine 1 10 150, memLine 2 20 130]

def c1entries : List (ReportIdentifier × List JsonLine) :=
  [(ReportIdentifier.Pid 1, c1samples)]

/-- The exported memory counter value streams of a generated profile. -/
def memValueStreams (entries : List (ReportIdentifier × List JsonLine)) :
    Option (List (List Q)) :=
  (generate_fxprof entries).map
    (fun pr => pr.processes.map (fun p => p.mem_counter.map (fun e => e.2)))

/-- Claim C1, counterexample: for raw memory readings [100, 150, 130] the
exported memory counter sample stream is [0, 100, 50, -20], not
[0, 50, -20]: the second counter sample is 100, the raw absolute value of
the first reading, because the first add_value delta is measured against
the zero baseline the counter was initialized with. -/
theorem c1_counterexample :
    memValueStreams c1entries
        = some [[Q.ofNat 0, Q.ofNat 100, Q.ofNat 50, Q.ofInt (-20)]]
    ∧ memValueStreams c1entries
        ≠ some [[Q.ofNat 0, Q.ofNat 50, Q.ofInt (-20)]]
    ∧ Q.ofNat 100 ≠ Q.ofNat 50 := by
  exact ⟨by decide, by decide, by decide⟩

/-- The memory counter delta values emitted by the record loop: one delta
per record, each measured against the previous raw value, starting from
the initial stored value. -/
theorem runLines_mem_values (iv builderStart mainKey : Nat) (m : FrameMap)
    (memL ioL : Q) (ls : List JsonLine) :
    ((runLines iv builderStart mainKey m memL ioL ls).mem_samples).map (fun e => e.2)
      = List.zipWith (fun l prev => Q.sub (Q.ofNat l.resources.memory) prev)
          ls (memL :: ls.map (fun l => Q.ofNat l.resources.memory)) := by
  induction ls generalizing m memL ioL with
  | nil => rfl
  | cons l ls ih =>
    simp only [runLines, List.map_cons, List.zipWith_cons_cons]
    exact congrArg (List.cons _) (ih _ _ _)

/-- Claim C1, amended: the memory counter stream of every exported process
is an explicit zero baseline followed by one delta per record, where each
delta is the current raw reading minus the previous stored value and the
stored value starts at zero — so the second counter sample equals the
first raw reading itself, and only from the third sample on does the
stream hold differences of consecutive raw readings. -/
theorem c1_amended (builderStart iv pid : Nat) (samples : List JsonLine)
    (po : ProcessOut) (h : add_process builderStart iv pid samples = some (some po)) :
    po.mem_counter.map (fun e => e.2)
      = Q.ofNat 0 ::
          List.zipWith (fun l prev => Q.sub (Q.ofNat l.resources.memory) prev)
            samples (Q.ofNat 0 :: samples.map (fun l => Q.ofNat l.resources.memory)) := by
  cases samples with
  | nil => simp [add_process] at h
  | cons first rest =>
    unfold add_process at h
    cases hsel : select_main_thread (first :: rest) with
    | none => rw [hsel] at h; exact absurd h (by simp)
    | some mt =>
      rw [hsel] at h
      simp only [Option.some.injEq] at h
      subst h
      show ((first.time - builderStart, Q.ofNat 0)
            :: (runLines iv builderStart (mt.1 % 2 ^ 32) [] (Q.ofNat 0) (Q.ofNat 0)
                (first :: rest)).mem_samples).map (fun e => e.2) = _
      rw [List.map_cons]
      exact congrArg (fun x => Q.ofNat 0 :: x)
        (runLines_mem_values iv builderStart (mt.1 % 2 ^ 32) [] (Q.ofNat 0) (Q.ofNat 0)
          (first :: rest))

def c1po : ProcessOut :=
  ((add_process 0 10 1 c1samples).getD none).getD dummyProcessOut

/-- Witness for c1_amended at the [100, 150, 130] session. -/
theorem c1_amended_witness :
    add_process 0 10 1 c1samples = some (some c1po)
    ∧ c1po.mem_counter.map (fun e => e.2)
        = Q.ofNat 0 ::
            List.zipWith (fun l prev => Q.sub (Q.ofNat l.resources.memory) prev)
              c1samples (Q.ofNat 0 :: c1samples.map (fun l => Q.ofNat l.resources.memory))
    ∧ c1po.mem_counter.map (fun e => e.2)
        = [Q.ofNat 0, Q.ofNat 100, Q.ofNat 50, Q.ofInt (-20)] :=
  ⟨by decide, c1_amended 0 10 1 c1samples c1po (by decide), by decide⟩

/- ---------------- C3: sampling interval is the delta median ------------- -/

/-- Claim C3, counterexample: the computed interval is the median reduced
modulo 2 ^ 64 (the u128 to u64 cast in the source), so for sample times
[0, 2 ^ 64] the median delta is 2 ^ 64 but the computed interval is 0. -/
theorem c3_counterexample :
    sampling_interval [tline 0, tline (2 ^ 64)] = some 0
    ∧ medianSpec (timeDeltas [tline 0, tline (2 ^ 64)]) = some (2 ^ 64)
    ∧ (0 : Nat) ≠ 2 ^ 64 := by
  exact ⟨by decide, by decide, by decide⟩

/-- Claim C3, amended: the estimated sampling interval equals the median
(upper middle element of the sorted list) of the consecutive saturating
time deltas of the merged sample stream, truncated to 64 bits; for sample
times [0, 10, 20, 1000, 1010] the deltas are [10, 10, 980, 10], sorted
[10, 10, 10, 980], and the computed interval is 10, unaffected by the 980
outlier. -/
theorem c3_amended :
    (∀ samples : List JsonLine,
        sampling_interval samples
          = (medianSpec (timeDeltas samples)).map (fun d => d % 2 ^ 64))
    ∧ timeDeltas [tline 0, tline 10, tline 20, tline 1000, tline 1010]
        = [10, 10, 980, 10]
    ∧ List.insertionSort (· ≤ ·)
          (timeDeltas [tline 0, tline 10, tline 20, tline 1000, tline 1010])
        = [10, 10, 10, 980]
    ∧ sampling_interval [tline 0, tline 10, tline 20, tline 1000, tline 1010]
        = some 10 := by
  refine ⟨?_, by decide, by decide, by decide⟩
  intro samples
  simp [sampling_interval, medianSpec, List.length_insertionSort]

/- ---------------- C9: a single-record session fails ---------------- -/

/-- Claim C9: a session with exactly one record overall fails the export:
the interval estimator has no consecutive delta to take a median over. -/
theorem c9_single_record_fails (entries : List (ReportIdentifier × List JsonLine))
    (h : (mergedLines entries).length = 1) :
    generate_fxprof entries = none := by
  obtain ⟨a, ha⟩ := List.length_eq_one.mp h
  unfold generate_fxprof
  rw [ha]
  simp [start_time, sampling_interval, timeDeltas]

/-- Witness for c9_single_record_fails: a session holding one record. -/
theorem c9_witness :
    generate_fxprof [(ReportIdentifier.Pid 1, [tline 0])] = none :=
  c9_single_record_fails _ (by decide)

/- ---------------- C2: the pipeline is order dependent ---------------- -/

def c2g : List JsonLine := [tline 0, tline 10, tline 30]

def c2p1 : List JsonLine := [pline 10]

def c2p2 : List JsonLine := [pline 30]

/-- The session map {global: [0,10,30], 1: [10], 2: [30]} in one HashMap
iteration order. -/
def c2e1 : List (ReportIdentifier × List JsonLine) :=
  [(ReportIdentifier.Global, c2g), (ReportIdentifier.Pid 1, c2p1),
   (ReportIdentifier.Pid 2, c2p2)]

/-- The same session map in another iteration order. -/
def c2e2 : List (ReportIdentifier × List JsonLine) :=
  [(ReportIdentifier.Global, c2g), (ReportIdentifier.Pid 2, c2p2),
   (ReportIdentifier.Pid 1, c2p1)]

/-- Claim C2: the export pipeline is not a deterministic function of the
recorded session: the sampling-interval median is taken over the merged
stream in HashMap iteration order, which varies between runs.  The two
orders of the same three-file session yield intervals 20 and 10 and hence
different serialized profiles. -/
theorem c2_order_dependent :
    List.Perm c2e2 c2e1
    ∧ (generate_fxprof c2e1).map (fun pr => pr.interval_millis) = some 20
    ∧ (generate_fxprof c2e2).map (fun pr => pr.interval_millis) = some 10
    ∧ generate_fxprof c2e1 ≠ generate_fxprof c2e2 := by
  refine ⟨List.Perm.cons _ (List.Perm.swap _ _ _), by decide, by decide, by decide⟩


/- ---------------- C10: Global records participate ---------------- -/

/-- add_process leaves the pid of the produced process entity untouched. -/
theorem add_process_pid (bs iv p : Nat) (ls : List JsonLine) (po : ProcessOut)
    (h : add_process bs iv p ls = some (some po)) : po.pid = p := by
  cases ls with
  | nil => simp [add_process] at h
  | cons first rest =>
    unfold add_process at h
    cases hsel : select_main_thread (first :: rest) with
    | none => rw [hsel] at h; exact absurd h (by simp)
    | some mt =>
      rw [hsel] at h
      simp only [Option.some.injEq] at h
      subst h
      rfl

/-- Every process entity built by the process loop stems from a Pid entry
of the session; Global entries produce none. -/
theorem buildProcesses_pids (bs iv : Nat)
    (entries : List (ReportIdentifier × List JsonLine)) (ps : List ProcessOut)
    (h : buildProcesses bs iv entries = some ps) :
    ∀ po ∈ ps, ∃ p ls, (ReportIdentifier.Pid p, ls) ∈ entries ∧ po.pid = p := by
  induction entries generalizing ps with
  | nil =>
    simp only [buildProcesses, Option.some.injEq] at h
    subst h
    intro po hpo
    exact absurd hpo (List.not_mem_nil po)
  | cons e rest ih =>
    obtain ⟨id, ls⟩ := e
    cases id with
    | Global =>
      rw [show buildProcesses bs iv ((ReportIdentifier.Global, ls) :: rest)
            = buildProcesses bs iv rest from rfl] at h
      intro po hpo
      obtain ⟨p, ls2, hmem, hpid⟩ := ih ps h po hpo
      exact ⟨p, ls2, List.mem_cons_of_mem _ hmem, hpid⟩
    | Pid p =>
      rw [show buildProcesses bs iv ((ReportIdentifier.Pid p, ls) :: rest)
            = (match add_process bs iv p ls with
               | none => none
               | some none => buildProcesses bs iv rest
               | some (some po) =>
                 (buildProcesses bs iv rest).map (fun t => po :: t)) from rfl] at h
      cases hap : add_process bs iv p ls with
      | none => rw [hap] at h; exact absurd h (by simp)
      | some opt =>
        rw [hap] at h
        cases opt with
        | none =>
          intro po hpo
          obtain ⟨p2, ls2, hmem, hpid⟩ := ih ps h po hpo
          exact ⟨p2, ls2, List.mem_cons_of_mem _ hmem, hpid⟩
        | some po0 =>
          cases hbp : buildProcesses bs iv rest with
          | none => rw [hbp] at h; exact absurd h (by simp)
          | some tail =>
            rw [hbp] at h
            have h2 : po0 :: tail = ps := by simpa using h
            subst h2
            intro po hpo
            rcases List.mem_cons.mp hpo with rfl | hpo2
            · exact ⟨p, ls, List.mem_cons_self _ _, add_process_pid bs iv p ls po hap⟩
            · obtain ⟨p2, ls2, hmem, hpid⟩ := ih tail hbp po hpo2
              exact ⟨p2, ls2, List.mem_cons_of_mem _ hmem, hpid⟩

/-- Claim C10: the reference time and the sampling interval of an exported
profile are computed over the merged stream of every loaded identity,
Global records included, while every process entity of the output stems
from a Pid entry — the Global identity never yields one. -/
theorem c10_global_participates (entries : List (ReportIdentifier × List JsonLine))
    (prof : ProfileOut) (h : generate_fxprof entries = some prof) :
    start_time (mergedLines entries) = some prof.start_time_millis
    ∧ sampling_interval (mergedLines entries) = some prof.interval_millis
    ∧ buildProcesses prof.start_time_millis prof.interval_millis entries
        = some prof.processes
    ∧ ∀ po ∈ prof.processes, ∃ p ls,
        (ReportIdentifier.Pid p, ls) ∈ entries ∧ po.pid = p := by
  cases hst : start_time (mergedLines entries) with
  | none => simp [generate_fxprof, hst] at h
  | some st =>
    cases hiv : sampling_interval (mergedLines entries) with
    | none => simp [generate_fxprof, hst, hiv] at h
    | some iv =>
      cases hbp : buildProcesses st iv entries with
      | none => simp [generate_fxprof, hst, hiv, hbp] at h
      | some ps =>
        simp only [generate_fxprof, hst, hiv, hbp, Option.some.injEq] at h
        subst h
        exact ⟨rfl, rfl, hbp, buildProcesses_pids st iv entries ps hbp⟩

/-- A session where the earliest record belongs to the Global identity. -/
def s10 : List (ReportIdentifier × List JsonLine) :=
  [(ReportIdentifier.Pid 1, [pline 100, pline 110]),
   (ReportIdentifier.Global, [tline 0])]

def prof10 : ProfileOut := (generate_fxprof s10).getD dummyProfileOut

/-- Witness for c10_global_participates: the Global record at time 0 sets
the reference time even though no Global process entity exists. -/
theorem c10_witness :
    generate_fxprof s10 = some prof10
    ∧ (start_time (mergedLines s10) = some prof10.start_time_millis
       ∧ sampling_interval (mergedLines s10) = some prof10.interval_millis
       ∧ buildProcesses prof10.start_time_millis prof10.interval_millis s10
           = some prof10.processes
       ∧ ∀ po ∈ prof10.processes, ∃ p ls,
           (ReportIdentifier.Pid p, ls) ∈ s10 ∧ po.pid = p)
    ∧ prof10.start_time_millis = 0 :=
  ⟨by decide, c10_global_participates s10 prof10 (by decide), by decide⟩

/- ---------------- C4: main thread selection ---------------- -/

/-- In an id-sorted pair list, a successful find of a MainThread entry
returns a member named MainThread whose id is minimal among all entries
named MainThread. -/
theorem find_mt_min (l : List (Nat × String)) (hs : List.Sorted leFst l)
    (e : Nat × String) (hf : l.find? (fun x => x.2 == "MainThread") = some e) :
    e.2 = "MainThread" ∧ e ∈ l ∧ ∀ x ∈ l, x.2 = "MainThread" → e.1 ≤ x.1 := by
  induction l with
  | nil => simp at hf
  | cons a rest ih =>
    cases hp : (a.2 == "MainThread") with
    | true =>
      rw [show (a :: rest).find? (fun x => x.2 == "MainThread")
            = some a from List.find?_cons_of_pos _ hp] at hf
      simp only [Option.some.injEq] at hf
      subst hf
      refine ⟨by simpa using hp, List.mem_cons_self _ _, ?_⟩
      intro x hx _
      rcases List.mem_cons.mp hx with rfl | hx2
      · exact Nat.le_refl _
      · exact List.rel_of_sorted_cons hs x hx2
    | false =>
      rw [show (a :: rest).find? (fun x => x.2 == "MainThread")
            = rest.find? (fun x => x.2 == "MainThread")
          from List.find?_cons_of_neg _ (by simp [hp])] at hf
      obtain ⟨h1, h2, h3⟩ := ih hs.of_cons hf
      refine ⟨h1, List.mem_cons_of_mem _ h2, ?_⟩
      intro x hx hxmt
      rcases List.mem_cons.mp hx with rfl | hx2
      · exact absurd hxmt (by simpa using hp)
      · exact h3 x hx2 hxmt

/-- Claim C4: main-thread selection over the threads observed anywhere in
the records of a process, sorted by thread id: when an entry literally
named MainThread exists, the one with the least id among those is
selected; when none exists, the entry with the least thread id overall is
selected. -/
theorem c4_main_thread_selection (samples : List JsonLine)
    (hne : threadPairs samples ≠ []) :
    ((∃ e ∈ threadPairs samples, e.2 = "MainThread") →
       ∃ i, selectMainThreadId samples = some i
         ∧ (i, "MainThread") ∈ threadPairs samples
         ∧ ∀ j, (j, "MainThread") ∈ threadPairs samples → i ≤ j)
    ∧ ((∀ e ∈ threadPairs samples, e.2 ≠ "MainThread") →
       ∃ i, selectMainThreadId samples = some i
         ∧ i ∈ (threadPairs samples).map (fun e => e.1)
         ∧ ∀ j ∈ (threadPairs samples).map (fun e => e.1), i ≤ j) := by
  have hperm : List.Perm (sortedThreadPairs samples) (threadPairs samples) :=
    List.perm_insertionSort leFst (threadPairs samples)
  have hsort : List.Sorted leFst (sortedThreadPairs samples) :=
    List.sorted_insertionSort leFst (threadPairs samples)
  constructor
  · rintro ⟨e0, he0, hmt0⟩
    cases hf : (sortedThreadPairs samples).find? (fun x => x.2 == "MainThread") with
    | none =>
      exact absurd (by simp [hmt0])
        (List.find?_eq_none.mp hf e0 (hperm.mem_iff.mpr he0))
    | some e =>
      obtain ⟨h1, h2, h3⟩ := find_mt_min _ hsort e hf
      have hee : (e.1, "MainThread") = e := by rw [← h1]
      have hmem : (e.1, "MainThread") ∈ threadPairs samples := by
        rw [hee]; exact hperm.subset h2
      refine ⟨e.1, ?_, hmem, ?_⟩
      · unfold selectMainThreadId select_main_thread
        rw [hf]
        rfl
      · intro j hj
        exact h3 (j, "MainThread") (hperm.mem_iff.mpr hj) rfl
  · intro hno
    cases hf : (sortedThreadPairs samples).find? (fun x => x.2 == "MainThread") with
    | some e =>
      obtain ⟨h1, h2, _⟩ := find_mt_min _ hsort e hf
      exact absurd h1 (hno e (hperm.subset h2))
    | none =>
      cases hsp : sortedThreadPairs samples with
      | nil =>
        rw [hsp] at hperm
        exact absurd (List.Perm.eq_nil hperm.symm) hne
      | cons a rest =>
        rw [hsp] at hperm hsort
        refine ⟨a.1, ?_, ?_, ?_⟩
        · unfold selectMainThreadId select_main_thread
          rw [hsp] at hf
          rw [hsp, hf]
          rfl
        · exact List.mem_map_of_mem _ (hperm.subset (List.mem_cons_self a rest))
        · intro j hj
          obtain ⟨x, hx, hxj⟩ := List.mem_map.mp hj
          have hxs := hperm.mem_iff.mpr hx
          rcases List.mem_cons.mp hxs with rfl | hx2
          · exact hxj ▸ Nat.le_refl _
          · exact hxj ▸ List.rel_of_sorted_cons hsort x hx2

/-- A record whose stack traces show thread 7 named Worker and thread 3
named Loader, with no MainThread. -/
def c4samples : List JsonLine :=
  [{ stacktraces := [mkTrace 7 (some "Worker"), mkTrace 3 (some "Loader")],
     resources := zeroRes, index := 0, time := 0 }]

/-- Witness for c4_main_thread_selection: with threads 7 Worker and 3
Loader and no MainThread, thread id 3 is selected. -/
theorem c4_witness :
    threadPairs c4samples ≠ []
    ∧ (∃ i, selectMainThreadId c4samples = some i
        ∧ i ∈ (threadPairs c4samples).map (fun e => e.1)
        ∧ ∀ j ∈ (threadPairs c4samples).map (fun e => e.1), i ≤ j)
    ∧ selectMainThreadId c4samples = some 3 :=
  ⟨by decide, (c4_main_thread_selection c4samples (by decide)).2 (by decide), by decide⟩


/- ---------------- C5: per-identity index sequences ---------------- -/

/-- One written record contributes its index to the stream of its path. -/
theorem indicesFor_cons_pos (p : OutPath) (w : WrittenLine) (ws : List WrittenLine)
    (h : w.path = p) :
    indicesFor p (w :: ws) = w.line.index :: indicesFor p ws := by
  simp [indicesFor, List.filterMap_cons, h]

/-- A written record of another path leaves the stream unchanged. -/
theorem indicesFor_cons_neg (p : OutPath) (w : WrittenLine) (ws : List WrittenLine)
    (h : ¬ w.path = p) :
    indicesFor p (w :: ws) = indicesFor p ws := by
  simp [indicesFor, List.filterMap_cons, h]

/-- The indices any fixed path receives from the writer form the
contiguous range starting at the current counter value of that path,
whatever other paths are interleaved. -/
theorem writerRun_indices (reqs : List WriteRequest) (ctr : OutPath → Nat)
    (p : OutPath) :
    indicesFor p (writerRun reqs ctr)
      = List.range' (ctr p) ((reqs.map (fun r => r.output_path)).count p) := by
  induction reqs generalizing ctr with
  | nil => rfl
  | cons r rs ih =>
    rw [show writerRun (r :: rs) ctr
          = { path := r.output_path,
              line := { stacktraces := r.stacktraces, resources := r.resources,
                        index := ctr r.output_path, time := r.time } } ::
            writerRun rs (fun q => if q = r.output_path then ctr q + 1 else ctr q)
        from rfl]
    by_cases hp : r.output_path = p
    · rw [indicesFor_cons_pos p _ _ hp]
      rw [ih (fun q => if q = r.output_path then ctr q + 1 else ctr q)]
      subst hp
      have hctr : (if r.output_path = r.output_path then ctr r.output_path + 1
          else ctr r.output_path) = ctr r.output_path + 1 := if_pos rfl
      rw [hctr]
      have hcnt : (((r :: rs).map (fun r => r.output_path)).count r.output_path)
          = ((rs.map (fun r => r.output_path)).count r.output_path) + 1 := by
        simp [List.count_cons]
      rw [hcnt]
      rfl
    · rw [indicesFor_cons_neg p _ _ hp]
      rw [ih (fun q => if q = r.output_path then ctr q + 1 else ctr q)]
      have hctr : (if p = r.output_path then ctr p + 1 else ctr p) = ctr p :=
        if_neg (fun h => hp h.symm)
      rw [hctr]
      have hcnt : (((r :: rs).map (fun r => r.output_path)).count p)
          = ((rs.map (fun r => r.output_path)).count p) := by
        simp [List.count_cons, hp]
      rw [hcnt]

/-- Claim C5: within the log of each identity the written index sequence
is exactly 0, 1, 2, ... with no gaps or duplicates, independent of the
interleaving with other identities; and a tick in which
get_process_info is empty for a pid emits no request for that identity,
so the next successful tick simply continues the sequence. -/
theorem c5_index_monotonic :
    (∀ (reqs : List WriteRequest) (p : OutPath),
        indicesFor p (writerRun reqs (fun _ => 0))
          = List.range ((reqs.map (fun r => r.output_path)).count p))
    ∧ (∀ (captured : List (Nat × List StackTrace))
         (info : Nat → Option ProcessResources) (ginfo : ProcessResources)
         (t procId : Nat), info procId = none →
        ∀ r ∈ tickRequests captured info ginfo t,
          r.output_path ≠ OutPath.pid procId) := by
  constructor
  · intro reqs p
    rw [List.range_eq_range']
    exact writerRun_indices reqs (fun _ => 0) p
  · intro captured info ginfo t procId hnone r hr
    unfold tickRequests at hr
    rcases List.mem_append.mp hr with h1 | h2
    · obtain ⟨pr, hpr, heq⟩ := List.mem_filterMap.mp h1
      cases hinfo : info pr.1 with
      | none => rw [hinfo] at heq; exact absurd heq (by simp)
      | some res =>
        rw [hinfo] at heq
        simp only [Option.map_some', Option.some.injEq] at heq
        subst heq
        intro hcon
        simp only [OutPath.pid.injEq] at hcon
        rw [hcon] at hinfo
        rw [hinfo] at hnone
        exact absurd hnone (by simp)
    · simp only [List.mem_singleton] at h2
      subst h2
      intro hcon
      exact absurd hcon (by simp)

/-- A three-tick run for pid 5 in which the first tick finds no resources
for it. -/
def c5tick1 : List WriteRequest :=
  tickRequests [(5, [])] (fun _ => none) zeroRes 0

def c5tick2 : List WriteRequest :=
  tickRequests [(5, [])] (fun _ => some zeroRes) zeroRes 10

def c5tick3 : List WriteRequest :=
  tickRequests [(5, [])] (fun _ => some zeroRes) zeroRes 20

def c5reqs : List WriteRequest := c5tick1 ++ c5tick2 ++ c5tick3

/-- Witness for c5_index_monotonic: pid 5 is skipped in the first tick and
still receives the gapless index sequence [0, 1] over the later ticks. -/
theorem c5_witness :
    indicesFor (OutPath.pid 5) (writerRun c5reqs (fun _ => 0))
      = List.range ((c5reqs.map (fun r => r.output_path)).count (OutPath.pid 5))
    ∧ (∀ r ∈ tickRequests [(5, [])] (fun _ => none) zeroRes 0,
        r.output_path ≠ OutPath.pid 5)
    ∧ indicesFor (OutPath.pid 5) (writerRun c5reqs (fun _ => 0)) = [0, 1]
    ∧ indicesFor OutPath.global (writerRun c5reqs (fun _ => 0)) = [0, 1, 2] :=
  ⟨c5_index_monotonic.1 c5reqs (OutPath.pid 5),
   c5_index_monotonic.2 [(5, [])] (fun _ => none) zeroRes 0 5 rfl,
   by decide, by decide⟩


/- ---------------- C6: CPU weight attribution ---------------- -/

/-- The CPU attribution rule as the spec states it: the process-level cpu
percent, scaled to interval millis, for the selected main thread; else the
reported cpu of the os thread when the record resource map has an entry
for the os thread id of the stack trace; else zero. -/
def cpuAttribution (iv mainKey : Nat) (res : ProcessResources) (tr : StackTrace) : Q :=
  if tr.thread_id % 2 ^ 32 = mainKey then cpuScaled iv res.cpu
  else match tr.os_thread_id with
    | some osid =>
      match lookupTR res.thread_resources osid with
      | some r => cpuScaled iv r.cpu
      | none => Q.ofNat 0
    | none => Q.ofNat 0

/-- Every stack trace of a record yields exactly one emitted sample, whose
cpu weight follows the attribution rule. -/
theorem processTraces_proj (iv mk : Nat) (res : ProcessResources) (ts : Nat)
    (trs : List StackTrace) (m : FrameMap) :
    ((processTraces iv mk res ts m trs).2).map
        (fun s => (s.thread_key, s.time, s.cpu, s.weight))
      = trs.map (fun tr =>
          (tr.thread_id % 2 ^ 32, ts, cpuAttribution iv mk res tr, 1)) := by
  induction trs generalizing m with
  | nil => rfl
  | cons tr rest ih =>
    simp only [processTraces, List.map_cons]
    rw [ih]
    rfl

/-- The samples emitted for a record list, projected to thread key,
timestamp, cpu weight and sample weight: one sample per stack trace per
record, in order, with the attributed cpu weight. -/
theorem runLines_samples_proj (iv bs mk : Nat) (ls : List JsonLine)
    (m : FrameMap) (memL ioL : Q) :
    ((runLines iv bs mk m memL ioL ls).samples).map
        (fun s => (s.thread_key, s.time, s.cpu, s.weight))
      = ls.flatMap (fun l => l.stacktraces.map (fun tr =>
          (tr.thread_id % 2 ^ 32, l.time - bs,
           cpuAttribution iv mk l.resources tr, 1))) := by
  induction ls generalizing m memL ioL with
  | nil => rfl
  | cons l rest ih =>
    simp only [runLines, List.flatMap_cons, List.map_append]
    rw [processTraces_proj, ih]

/-- Claim C6: for every ingested record and every stack trace in it one
sample is emitted (the thread is recorded as present in every case), and
its cpu weight is the process cpu scaled to interval millis when the
thread is the selected main thread, else the os-thread entry of the
record resource map when present, else zero. -/
theorem c6_cpu_attribution (builderStart iv pid : Nat) (samples : List JsonLine)
    (po : ProcessOut) (h : add_process builderStart iv pid samples = some (some po)) :
    (∃ mt, select_main_thread samples = some mt ∧ po.main_key = mt.1 % 2 ^ 32)
    ∧ po.samples.map (fun s => (s.thread_key, s.time, s.cpu, s.weight))
        = samples.flatMap (fun l => l.stacktraces.map (fun tr =>
            (tr.thread_id % 2 ^ 32, l.time - builderStart,
             cpuAttribution iv po.main_key l.resources tr, 1))) := by
  cases samples with
  | nil => simp [add_process] at h
  | cons first rest =>
    unfold add_process at h
    cases hsel : select_main_thread (first :: rest) with
    | none => rw [hsel] at h; exact absurd h (by simp)
    | some mt =>
      rw [hsel] at h
      simp only [Option.some.injEq] at h
      subst h
      exact ⟨⟨mt, rfl, rfl⟩,
        runLines_samples_proj iv builderStart (mt.1 % 2 ^ 32) (first :: rest)
          [] (Q.ofNat 0) (Q.ofNat 0)⟩

/-- Resources attributing cpu 30 to the process and cpu 50 to os thread
101, with no entry for os thread 102. -/
def c6res : ProcessResources :=
  { memory := 0, cpu := Q.ofNat 30, disk_read_bytes := 0, disk_write_bytes := 0,
    thread_resources :=
      [(101, { cpu := Q.ofNat 50, memory := 0, disk_read_bytes := 0,
               disk_write_bytes := 0 })] }

def c6trace (tid : Nat) (nm : Option String) (osid : Option Nat) : StackTrace :=
  { pid := 1, thread_id := tid, thread_name := nm, os_thread_id := osid,
    active := true, owns_gil := false, frames := [] }

/-- One record with a main thread, a worker with a resource entry, a
worker without one, and a worker with no os thread id. -/
def c6samples : List JsonLine :=
  [{ stacktraces :=
       [c6trace 1 (some "MainThread") (some 100), c6trace 2 (some "W1") (some 101),
        c6trace 3 (some "W2") (some 102), c6trace 4 (some "W3") none],
     resources := c6res, index := 0, time := 0 }]

def c6po : ProcessOut :=
  ((add_process 0 10 1 c6samples).getD none).getD dummyProcessOut

/-- Witness for c6_cpu_attribution: with interval 10, the main thread gets
30 percent of 10 ms, the worker with a resource entry 50 percent of 10 ms,
and the two remaining threads zero, while all four samples are present. -/
theorem c6_witness :
    add_process 0 10 1 c6samples = some (some c6po)
    ∧ ((∃ mt, select_main_thread c6samples = some mt
          ∧ c6po.main_key = mt.1 % 2 ^ 32)
       ∧ c6po.samples.map (fun s => (s.thread_key, s.time, s.cpu, s.weight))
           = c6samples.flatMap (fun l => l.stacktraces.map (fun tr =>
               (tr.thread_id % 2 ^ 32, l.time - 0,
                cpuAttribution 10 c6po.main_key l.resources tr, 1))))
    ∧ c6po.samples.map (fun s => s.cpu)
        = [Q.ofNat 3, Q.ofNat 5, Q.ofNat 0, Q.ofNat 0] :=
  ⟨by decide, c6_cpu_attribution 0 10 1 c6samples c6po (by decide), by decide⟩


/- ---------------- C7: frame interning ---------------- -/

/-- The interning map only ever grows by appending new records. -/
def FMExt (m m2 : FrameMap) : Prop := ∃ t, m2 = m ++ t

theorem FMExt_refl (m : FrameMap) : FMExt m m := ⟨[], by simp⟩

theorem FMExt_trans {a b c : FrameMap} (h1 : FMExt a b) (h2 : FMExt b c) :
    FMExt a c := by
  obtain ⟨t1, rfl⟩ := h1
  obtain ⟨t2, rfl⟩ := h2
  exact ⟨t1 ++ t2, by simp⟩

theorem fmLookup_cons (e : (String × Int) × FrameInfo) (rest : FrameMap)
    (k : String × Int) :
    fmLookup (e :: rest) k = if e.1 = k then some e.2 else fmLookup rest k := rfl

theorem fmLookup_append_some {m : FrameMap} {k : String × Int} {v : FrameInfo}
    (t : FrameMap) (h : fmLookup m k = some v) : fmLookup (m ++ t) k = some v := by
  induction m with
  | nil => simp [fmLookup] at h
  | cons e rest ih =>
    rw [List.cons_append, fmLookup_cons]
    rw [fmLookup_cons] at h
    by_cases he : e.1 = k
    · rw [if_pos he] at h ⊢; exact h
    · rw [if_neg he] at h ⊢; exact ih h

theorem fmLookup_append_none {m : FrameMap} {k : String × Int}
    (t : FrameMap) (h : fmLookup m k = none) :
    fmLookup (m ++ t) k = fmLookup t k := by
  induction m with
  | nil => rfl
  | cons e rest ih =>
    rw [List.cons_append, fmLookup_cons]
    rw [fmLookup_cons] at h
    by_cases he : e.1 = k
    · rw [if_pos he] at h; exact absurd h (by simp)
    · rw [if_neg he] at h ⊢; exact ih h

theorem FMExt_lookup {m m2 : FrameMap} {k : String × Int} {v : FrameInfo}
    (he : FMExt m m2) (h : fmLookup m k = some v) : fmLookup m2 k = some v := by
  obtain ⟨t, rfl⟩ := he
  exact fmLookup_append_some t h

theorem fmLookup_none_iff (m : FrameMap) (k : String × Int) :
    fmLookup m k = none ↔ k ∉ m.map (fun e => e.1) := by
  induction m with
  | nil => simp [fmLookup]
  | cons e rest ih =>
    unfold fmLookup
    by_cases he : e.1 = k
    · simp [he]
    · simp [he, ih, Ne.symm he]

theorem internFrame_ext (m : FrameMap) (f : Frame) : FMExt m (internFrame m f).1 := by
  unfold internFrame
  cases h : fmLookup m (frameKey f) with
  | some i => exact FMExt_refl m
  | none => exact ⟨[(frameKey f, mkFrameInfo f)], rfl⟩

theorem internFrame_lookup (m : FrameMap) (f : Frame) :
    fmLookup (internFrame m f).1 (frameKey f) = some (internFrame m f).2 := by
  unfold internFrame
  cases h : fmLookup m (frameKey f) with
  | some i => exact h
  | none =>
    rw [fmLookup_append_none _ h]
    simp [fmLookup]

theorem internFrame_nodup {m : FrameMap} (f : Frame)
    (h : (m.map (fun e => e.1)).Nodup) :
    (((internFrame m f).1).map (fun e => e.1)).Nodup := by
  unfold internFrame
  cases hl : fmLookup m (frameKey f) with
  | some i => exact h
  | none =>
    rw [List.map_append]
    have hk : frameKey f ∉ m.map (fun e => e.1) := (fmLookup_none_iff m _).mp hl
    simp [List.nodup_append, h, hk]

/-- The stack built for a reversed frame list resolves every frame through
the final interning map at its (filename, line) key; the map only grows,
keeps its keys unique, and afterwards holds an entry for every processed
frame. -/
theorem buildStack_spec (fs : List Frame) (m : FrameMap) :
    FMExt m (buildStack m fs).1
    ∧ ((m.map (fun e => e.1)).Nodup →
        (((buildStack m fs).1).map (fun e => e.1)).Nodup)
    ∧ ((buildStack m fs).2).map some
        = fs.map (fun f => fmLookup (buildStack m fs).1 (frameKey f))
    ∧ ∀ f ∈ fs, ∃ v, fmLookup (buildStack m fs).1 (frameKey f) = some v := by
  induction fs generalizing m with
  | nil => exact ⟨FMExt_refl m, fun h => h, rfl, by simp⟩
  | cons f fs ih =>
    obtain ⟨ihExt, ihNd, ihMap, ihSome⟩ := ih (internFrame m f).1
    have hlk : fmLookup (buildStack (internFrame m f).1 fs).1 (frameKey f)
        = some (internFrame m f).2 :=
      FMExt_lookup ihExt (internFrame_lookup m f)
    refine ⟨FMExt_trans (internFrame_ext m f) ihExt,
      fun h => ihNd (internFrame_nodup f h), ?_, ?_⟩
    · show some (internFrame m f).2
          :: ((buildStack (internFrame m f).1 fs).2).map some
        = fmLookup (buildStack (internFrame m f).1 fs).1 (frameKey f)
          :: fs.map (fun g =>
              fmLookup (buildStack (internFrame m f).1 fs).1 (frameKey g))
      rw [ihMap, hlk]
    · intro g hg
      rcases List.mem_cons.mp hg with rfl | hg2
      · exact ⟨(internFrame m g).2, hlk⟩
      · exact ihSome g hg2

/-- Per stack-trace list: every emitted sample stack resolves through the
final interning map by frame key; the map grows, keeps unique keys, and
holds every processed frame. -/
theorem processTraces_spec (iv mk : Nat) (res : ProcessResources) (ts : Nat)
    (trs : List StackTrace) (m : FrameMap) :
    FMExt m (processTraces iv mk res ts m trs).1
    ∧ ((m.map (fun e => e.1)).Nodup →
        (((processTraces iv mk res ts m trs).1).map (fun e => e.1)).Nodup)
    ∧ ((processTraces iv mk res ts m trs).2).map (fun s => s.stack.map some)
        = trs.map (fun tr => tr.frames.reverse.map (fun f =>
            fmLookup (processTraces iv mk res ts m trs).1 (frameKey f)))
    ∧ ∀ tr ∈ trs, ∀ f ∈ tr.frames.reverse,
        ∃ v, fmLookup (processTraces iv mk res ts m trs).1 (frameKey f) = some v := by
  induction trs generalizing m with
  | nil => exact ⟨FMExt_refl m, fun h => h, rfl, by simp⟩
  | cons tr rest ih =>
    obtain ⟨bExt, bNd, bMap, bSome⟩ := buildStack_spec tr.frames.reverse m
    obtain ⟨iExt, iNd, iMap, iSome⟩ := ih (buildStack m tr.frames.reverse).1
    have hcong : tr.frames.reverse.map (fun f =>
          fmLookup (buildStack m tr.frames.reverse).1 (frameKey f))
        = tr.frames.reverse.map (fun f =>
            fmLookup (processTraces iv mk res ts
              (buildStack m tr.frames.reverse).1 rest).1 (frameKey f)) := by
      refine List.map_congr_left ?_
      intro f hf
      obtain ⟨v, hv⟩ := bSome f hf
      rw [hv, FMExt_lookup iExt hv]
    refine ⟨FMExt_trans bExt iExt, fun h => iNd (bNd h), ?_, ?_⟩
    · show (((buildStack m tr.frames.reverse).2).map some)
          :: ((processTraces iv mk res ts (buildStack m tr.frames.reverse).1
              rest).2).map (fun s => s.stack.map some)
        = (tr.frames.reverse.map (fun f =>
              fmLookup (processTraces iv mk res ts
                (buildStack m tr.frames.reverse).1 rest).1 (frameKey f)))
          :: rest.map (fun tr2 => tr2.frames.reverse.map (fun f =>
              fmLookup (processTraces iv mk res ts
                (buildStack m tr.frames.reverse).1 rest).1 (frameKey f)))
      rw [iMap, bMap, hcong]
    · intro tr2 htr2 f hf
      rcases List.mem_cons.mp htr2 with rfl | htr3
      · obtain ⟨v, hv⟩ := bSome f hf
        exact ⟨v, FMExt_lookup iExt hv⟩
      · exact iSome tr2 htr3 f hf

/-- Per record list: every emitted sample stack resolves through the final
interning map by frame key, and the map keeps unique keys. -/
theorem runLines_frames_spec (iv bs mk : Nat) (ls : List JsonLine)
    (m : FrameMap) (memL ioL : Q) :
    FMExt m (runLines iv bs mk m memL ioL ls).frames
    ∧ ((m.map (fun e => e.1)).Nodup →
        (((runLines iv bs mk m memL ioL ls).frames).map (fun e => e.1)).Nodup)
    ∧ ((runLines iv bs mk m memL ioL ls).samples).map (fun s => s.stack.map some)
        = ls.flatMap (fun l => l.stacktraces.map (fun tr =>
            tr.frames.reverse.map (fun f =>
              fmLookup (runLines iv bs mk m memL ioL ls).frames (frameKey f)))) := by
  induction ls generalizing m memL ioL with
  | nil => exact ⟨FMExt_refl m, fun h => h, rfl⟩
  | cons l rest ih =>
    obtain ⟨pExt, pNd, pMap, pSome⟩ :=
      processTraces_spec iv mk l.resources (l.time - bs) l.stacktraces m
    obtain ⟨rExt, rNd, rMap⟩ :=
      ih (processTraces iv mk l.resources (l.time - bs) m l.stacktraces).1
        (Q.ofNat l.resources.memory)
        (Q.ofNat (l.resources.disk_read_bytes + l.resources.disk_write_bytes))
    have hcong : l.stacktraces.map (fun tr => tr.frames.reverse.map (fun f =>
          fmLookup (processTraces iv mk l.resources (l.time - bs) m
            l.stacktraces).1 (frameKey f)))
        = l.stacktraces.map (fun tr => tr.frames.reverse.map (fun f =>
            fmLookup (runLines iv bs mk
              (processTraces iv mk l.resources (l.time - bs) m l.stacktraces).1
              (Q.ofNat l.resources.memory)
              (Q.ofNat (l.resources.disk_read_bytes + l.resources.disk_write_bytes))
              rest).frames (frameKey f))) := by
      refine List.map_congr_left ?_
      intro tr htr
      refine List.map_congr_left ?_
      intro f hf
      obtain ⟨v, hv⟩ := pSome tr htr f hf
      rw [hv, FMExt_lookup rExt hv]
    refine ⟨FMExt_trans pExt rExt, fun h => rNd (pNd h), ?_⟩
    rw [show (runLines iv bs mk m memL ioL (l :: rest)).samples
          = (processTraces iv mk l.resources (l.time - bs) m l.stacktraces).2
            ++ (runLines iv bs mk
                (processTraces iv mk l.resources (l.time - bs) m l.stacktraces).1
                (Q.ofNat l.resources.memory)
                (Q.ofNat (l.resources.disk_read_bytes + l.resources.disk_write_bytes))
                rest).samples from rfl]
    rw [show (runLines iv bs mk m memL ioL (l :: rest)).frames
          = (runLines iv bs mk
              (processTraces iv mk l.resources (l.time - bs) m l.stacktraces).1
              (Q.ofNat l.resources.memory)
              (Q.ofNat (l.resources.disk_read_bytes + l.resources.disk_write_bytes))
              rest).frames from rfl]
    rw [List.map_append, List.flatMap_cons, rMap, pMap, hcong]

/-- Claim C7: frame interning is keyed by (filename, line): the interning
map built while ingesting the records of one process holds exactly one
record per key (its key list has no duplicates), and every frame slot of
every emitted sample stack, across all samples and threads of the
process, is the map entry at the key of the originating frame — so equal
keys share one interned record and distinct keys resolve to distinct
records of the map. -/
theorem c7_frame_interning (iv builderStart mainKey : Nat) (lines : List JsonLine) :
    (((runLines iv builderStart mainKey [] (Q.ofNat 0) (Q.ofNat 0) lines).frames).map
        (fun e => e.1)).Nodup
    ∧ ((runLines iv builderStart mainKey [] (Q.ofNat 0) (Q.ofNat 0)
          lines).samples).map (fun s => s.stack.map some)
        = lines.flatMap (fun l => l.stacktraces.map (fun tr =>
            tr.frames.reverse.map (fun f =>
              fmLookup (runLines iv builderStart mainKey [] (Q.ofNat 0) (Q.ofNat 0)
                  lines).frames (frameKey f)))) := by
  obtain ⟨_, hnd, hmap⟩ :=
    runLines_frames_spec iv builderStart mainKey lines [] (Q.ofNat 0) (Q.ofNat 0)
  exact ⟨hnd (by simp), hmap⟩


/- ---------------- C8: read_report behaviour ---------------- -/

/-- One malformed line fails the whole line list. -/
theorem parseAll_none (parse : String → Option JsonLine) (ls : List String)
    (l : String) (hl : l ∈ ls) (h : parse l = none) :
    parseAll parse ls = none := by
  induction ls with
  | nil => exact absurd hl (List.not_mem_nil l)
  | cons s rest ih =>
    rcases List.mem_cons.mp hl with rfl | hl2
    · cases hrest : parseAll parse rest <;> simp [parseAll, h, hrest]
    · cases hs : parse s <;> simp [parseAll, hs, ih hl2]

/-- Claim C8: read_report reads every file, splits it into lines and
parses each line independently; one malformed line anywhere fails the
whole read with no partial result, as does a file stem that is neither
the literal global nor a parseable u32; on success every file contributes
exactly one entry whose identity follows the stem rule. -/
theorem c8_read_report (parse : String → Option JsonLine)
    (files : List (String × String)) :
    (∀ stem content, (stem, content) ∈ files →
        (∃ l ∈ rustLines content, parse l = none) →
        read_report parse files = none)
    ∧ (∀ stem content, (stem, content) ∈ files →
        parseIdentifier stem = none → read_report parse files = none)
    ∧ (∀ out, read_report parse files = some out →
        out.length = files.length
        ∧ ∀ pr ∈ files.zip out,
            parseAll parse (rustLines pr.1.2) = some pr.2.2
            ∧ parseIdentifier pr.1.1 = some pr.2.1
            ∧ (pr.1.1 = "global" → pr.2.1 = ReportIdentifier.Global)
            ∧ (∀ n, rustParseU32 pr.1.1 = some n → pr.1.1 ≠ "global" →
                pr.2.1 = ReportIdentifier.Pid n)) := by
  induction files with
  | nil =>
    refine ⟨?_, ?_, ?_⟩
    · intro stem content hmem
      exact absurd hmem (List.not_mem_nil _)
    · intro stem content hmem
      exact absurd hmem (List.not_mem_nil _)
    · intro out h
      simp only [read_report, Option.some.injEq] at h
      subst h
      exact ⟨rfl, by simp⟩
  | cons file rest ih =>
    obtain ⟨stem0, content0⟩ := file
    refine ⟨?_, ?_, ?_⟩
    · intro stem content hmem hbad
      rcases List.mem_cons.mp hmem with heq | hmem2
      · have hc : content0 = content := (Prod.mk.injEq _ _ _ _ ▸ heq.symm).2
        obtain ⟨l, hl, hlp⟩ := hbad
        have hpa : parseAll parse (rustLines content0) = none := by
          rw [hc]
          exact parseAll_none parse _ l hl hlp
        cases hpi : parseIdentifier stem0 <;>
          cases hrr : read_report parse rest <;>
            simp [read_report, hpa, hpi, hrr]
      · have hrr : read_report parse rest = none :=
          ih.1 stem content hmem2 hbad
        cases hpa : parseAll parse (rustLines content0) <;>
          cases hpi : parseIdentifier stem0 <;>
            simp [read_report, hpa, hpi, hrr]
    · intro stem content hmem hbad
      rcases List.mem_cons.mp hmem with heq | hmem2
      · have hs : stem0 = stem := (Prod.mk.injEq _ _ _ _ ▸ heq.symm).1
        have hpi : parseIdentifier stem0 = none := hs ▸ hbad
        cases hpa : parseAll parse (rustLines content0) <;>
          cases hrr : read_report parse rest <;>
            simp [read_report, hpa, hpi, hrr]
      · have hrr : read_report parse rest = none :=
          ih.2.1 stem content hmem2 hbad
        cases hpa : parseAll parse (rustLines content0) <;>
          cases hpi : parseIdentifier stem0 <;>
            simp [read_report, hpa, hpi, hrr]
    · intro out h
      unfold read_report at h
      cases hpa : parseAll parse (rustLines content0) with
      | none => rw [hpa] at h; exact absurd h (by simp)
      | some lines0 =>
        rw [hpa] at h
        cases hpi : parseIdentifier stem0 with
        | none => rw [hpi] at h; exact absurd h (by simp)
        | some id0 =>
          rw [hpi] at h
          cases hrr : read_report parse rest with
          | none => rw [hrr] at h; exact absurd h (by simp)
          | some tail =>
            rw [hrr] at h
            simp only [Option.some.injEq] at h
            subst h
            obtain ⟨hlen, hall⟩ := ih.2.2 tail hrr
            refine ⟨by simp [hlen], ?_⟩
            intro pr hpr
            rw [List.zip_cons_cons] at hpr
            rcases List.mem_cons.mp hpr with rfl | hpr2
            · refine ⟨hpa, hpi, ?_, ?_⟩
              · intro hg
                unfold parseIdentifier at hpi
                rw [if_pos hg] at hpi
                simpa using hpi.symm
              · intro n hn hng
                unfold parseIdentifier at hpi
                rw [if_neg hng] at hpi
                rw [hn] at hpi
                simpa using hpi.symm
            · exact hall pr hpr2

/-- A line parser accepting exactly the line L, and a two-file listing. -/
def parseW : String → Option JsonLine :=
  fun s => if s = "L" then some (tline 0) else none

def filesW : List (String × String) := [("global", "L\n"), ("12", "L")]

/-- Witness for c8_read_report: a global file and a pid file are read with
the stem rule; one malformed line fails the read; an unrecognized stem
fails the read. -/
theorem c8_witness :
    read_report parseW [("global", "L\nxx")] = none
    ∧ read_report parseW [("zz", "L")] = none
    ∧ (∀ out, read_report parseW filesW = some out →
        out.length = filesW.length
        ∧ ∀ pr ∈ filesW.zip out,
            parseAll parseW (rustLines pr.1.2) = some pr.2.2
            ∧ parseIdentifier pr.1.1 = some pr.2.1
            ∧ (pr.1.1 = "global" → pr.2.1 = ReportIdentifier.Global)
            ∧ (∀ n, rustParseU32 pr.1.1 = some n → pr.1.1 ≠ "global" →
                pr.2.1 = ReportIdentifier.Pid n))
    ∧ read_report parseW filesW
        = some [(ReportIdentifier.Global, [tline 0]),
                (ReportIdentifier.Pid 12, [tline 0])] :=
  ⟨(c8_read_report parseW [("global", "L\nxx")]).1 "global" "L\nxx" (by decide)
      ⟨"xx", by decide, by decide⟩,
   (c8_read_report parseW [("zz", "L")]).2.1 "zz" "L" (by decide) (by decide),
   (c8_read_report parseW filesW).2.2,
   by decide⟩

end PyCrude
